import Mathlib

/-!
Shallow embedding of the delay effect in `src/src/lib.rs` (plugin `Delay`,
nih-plug host framework).  Single-precision floating point arithmetic is
idealised as exact rational arithmetic over `ℚ`; the host-facing machinery
(parameter registration, plugin metadata, export macros) is out of scope.

Source map:
* `Delay.deque : VecDeque<f32>`            → `List ℚ` (front = most recent push)
* `deque.get(i).unwrap_or(&0.0)`           → `dequeGet`
* `(-1.0 + time * 0.001 * sample_rate) as usize` → `delayIndex` (`rustCastUsize`)
* `deque.remove((-1.0 + 2.0 * sample_rate) as usize)` → `List.eraseIdx (evictIndex R)`
* `VecDeque::with_capacity((2.0 * sample_rate) as usize)` in `initialize`
                                            → `initializeDelay` / `bufCapacity`
* the body of the per-frame loop in `Delay::process` → `processFrame`
  (`Option` models panics: `None` = an `unwrap()` aborted)
* the loop over `buffer.iter_samples()`    → `processBuffer`
-/

namespace DelayPlug

/-- Rust numeric cast `expr as usize` applied to a float value, idealised over
`ℚ`: truncation toward zero, saturating at `0` for negative inputs.  For
`x ≥ 0` truncation toward zero coincides with the floor, and for `x < 0` the
saturated result `0` coincides with `⌊x⌋.toNat`. -/
def rustCastUsize (x : ℚ) : ℕ := (⌊x⌋).toNat

/-- The three user parameters of `DelayParams` (`time` in milliseconds,
`feedback` and `mix` in `[0,1]`), as read once per `process` call via
`self.params.*.value()`. -/
structure DelayParams where
  time : ℚ
  feedback : ℚ
  mix : ℚ
deriving DecidableEq

/-- `self.deque.get(i).unwrap_or(&0.0)`: indexed lookup into the history
deque, `0.0` when the index is past the stored samples. -/
def dequeGet (q : List ℚ) (i : ℕ) : ℚ := q.getD i 0

/-- Line 124: `let index = (-1.0 + time * 0.001 * context.transport().sample_rate) as usize;`. -/
def delayIndex (time R : ℚ) : ℕ := rustCastUsize (-1 + time * (1/1000) * R)

/-- Line 130: the index handed to `self.deque.remove`, namely
`(-1.0 + 2.0 * context.transport().sample_rate) as usize`. -/
def evictIndex (R : ℚ) : ℕ := rustCastUsize (-1 + 2 * R)

/-- The capacity requested in `Delay::initialize`:
`(2.0 * buffer_config.sample_rate) as usize`. -/
def bufCapacity (R : ℚ) : ℕ := rustCastUsize (2 * R)

/-- `Delay::initialize`: `self.deque = VecDeque::with_capacity((2.0 * sample_rate) as usize);`.
The old deque is discarded and replaced by an empty one (with reserved
capacity `bufCapacity R`); `with_capacity` stores no elements. -/
def initializeDelay (oldDeque : List ℚ) (R : ℚ) : List ℚ := []

/-- Lines 129–132 minus the feedback arithmetic: remove the element at
`evictIndex R` (a no-op when the deque is shorter), then `push_front` the new
sample. -/
def pushSample (R : ℚ) (v : ℚ) (q : List ℚ) : List ℚ :=
  v :: q.eraseIdx (evictIndex R)

/-- The delayed sample read at line 127 of `Delay::process`:
`*self.deque.get(index).unwrap_or(&0.0)`. -/
def delayedVal (p : DelayParams) (R : ℚ) (q : List ℚ) : ℚ :=
  dequeGet q (delayIndex p.time R)

/-- The value pushed at lines 131–132: `dry + delay * feedback`. -/
def storedVal (p : DelayParams) (R : ℚ) (q : List ℚ) (dry : ℚ) : ℚ :=
  dry + delayedVal p R q * p.feedback

/-- The output written at lines 133–134: `dry * (1.0 - mix) + delay * mix`. -/
def outVal (p : DelayParams) (R : ℚ) (q : List ℚ) (dry : ℚ) : ℚ :=
  dry * (1 - p.mix) + delayedVal p R q * p.mix

/-- One iteration of the `for mut channel_samples in buffer.iter_samples()`
loop (lines 126–136).  `frame` is the list of the current frame's channel
samples; the result is `none` when one of the `unwrap()` calls on
`channel_samples.get_mut(_)` would panic, otherwise the updated deque and the
updated frame.  Order is the source's: read `delay` from the incoming deque,
remove at `evictIndex`, `push_front` the stored value, overwrite channel 0
with the mixed output, copy channel 0 into channel 1. -/
def processFrame (p : DelayParams) (R : ℚ) (q : List ℚ) (frame : List ℚ) :
    Option (List ℚ × List ℚ) :=
  let index := delayIndex p.time R
  let delay := dequeGet q index
  let q1 := q.eraseIdx (evictIndex R)
  match frame.get? 0 with
  | none => none
  | some dry =>
    let q2 := (dry + delay * p.feedback) :: q1
    let frame1 := frame.set 0 (dry * (1 - p.mix) + delay * p.mix)
    match frame1.get? 1 with
    | none => none
    | some _ => some (q2, frame1.set 1 (frame1.getD 0 0))

/-- The whole `Delay::process` loop over the frames of an audio block:
threads the deque through `processFrame` and collects the output frames;
`none` when some frame panicked. -/
def processBuffer (p : DelayParams) (R : ℚ) (q : List ℚ) :
    List (List ℚ) → Option (List ℚ × List (List ℚ))
  | [] => some (q, [])
  | f :: fs =>
    match processFrame p R q f with
    | none => none
    | some (q1, f1) =>
      match processBuffer p R q1 fs with
      | none => none
      | some (q2, fs1) => some (q2, f1 :: fs1)

/-- Deque update of one frame, scalar view: push `storedVal` after the
eviction, exactly as lines 129–132 do. -/
def dequeStep (p : DelayParams) (R : ℚ) (q : List ℚ) (dry : ℚ) : List ℚ :=
  pushSample R (storedVal p R q dry) q

/-- Deque state after `t` frames of a run of `Delay::process` on the dry
input stream `xs`, starting from the empty deque left by `initialize`. -/
def dequeAfter (p : DelayParams) (R : ℚ) (xs : ℕ → ℚ) : ℕ → List ℚ
  | 0 => []
  | t + 1 => dequeStep p R (dequeAfter p R xs t) (xs t)

/-- The delayed sample read during frame `t` of a run on dry input `xs`. -/
def delayedAt (p : DelayParams) (R : ℚ) (xs : ℕ → ℚ) (t : ℕ) : ℚ :=
  delayedVal p R (dequeAfter p R xs t)

/-- The output sample written during frame `t` of a run on dry input `xs`. -/
def outputAt (p : DelayParams) (R : ℚ) (xs : ℕ → ℚ) (t : ℕ) : ℚ :=
  outVal p R (dequeAfter p R xs t) (xs t)

/-- Deque state after `k` bare pushes of `f 0, f 1, …` (no feedback term),
the raw buffer dynamics of lines 129–132. -/
def pushedAfter (R : ℚ) (f : ℕ → ℚ) : ℕ → List ℚ
  | 0 => []
  | k + 1 => pushSample R (f k) (pushedAfter R f k)

/-- A unit impulse input stream: `1.0` at frame 0, silence afterwards. -/
def impulse : ℕ → ℚ := fun t => if t = 0 then 1 else 0

/-- The fractional delay lookup the specification (§4.2) prescribes, written
from the spec's words for comparison with the code's lookup: with
`whole = ⌊d⌋` and `frac = d - whole`,
`delayed = lookup(whole) * (1 - frac) + lookup(whole + 1) * frac`. -/
def specInterpDelayed (q : List ℚ) (d : ℚ) : ℚ :=
  dequeGet q (⌊d⌋).toNat * (1 - (d - ⌊d⌋)) + dequeGet q ((⌊d⌋).toNat + 1) * (d - ⌊d⌋)

/-! ## Helper lemmas -/

/-- The `-1.0 + x` index casts shift the floor down by one. -/
theorem rustCastUsize_neg_one_add (x : ℚ) :
    rustCastUsize (-1 + x) = (⌊x⌋ - 1).toNat := by
  unfold rustCastUsize
  rw [neg_add_eq_sub, Int.floor_sub_one]

/-- The removal index of line 130 is one less than the capacity requested in
`initialize`. -/
theorem evictIndex_eq (R : ℚ) : evictIndex R = bufCapacity R - 1 := by
  unfold evictIndex bufCapacity
  rw [rustCastUsize_neg_one_add, rustCastUsize]
  omega

/-- Erasing index `e` from a list truncated to `e + 1` elements just drops
the element beyond index `e - 1`. -/
theorem take_eraseIdx_eq (l : List ℚ) (e : ℕ) :
    (l.take (e + 1)).eraseIdx e = l.take e := by
  rw [List.eraseIdx_eq_take_drop_succ, List.take_take, List.drop_take]
  simp [Nat.min_eq_left (Nat.le_succ e)]

/-- `processFrame` on a frame with at least two channels, in closed form. -/
theorem processFrame_cons_eq (p : DelayParams) (R : ℚ) (q : List ℚ)
    (dry y : ℚ) (rest : List ℚ) :
    processFrame p R q (dry :: y :: rest) =
      some ((dry + delayedVal p R q * p.feedback) :: q.eraseIdx (evictIndex R),
        (dry * (1 - p.mix) + delayedVal p R q * p.mix) ::
          (dry * (1 - p.mix) + delayedVal p R q * p.mix) :: rest) := rfl

/-- The bare push dynamics keep the most recent `evictIndex R + 1` samples,
newest first. -/
theorem pushedAfter_eq (R : ℚ) (f : ℕ → ℚ) (k : ℕ) :
    pushedAfter R f k =
      (((List.range k).reverse).map f).take (evictIndex R + 1) := by
  induction k with
  | zero => simp [pushedAfter]
  | succ k ih =>
    rw [pushedAfter, ih]
    unfold pushSample
    rw [take_eraseIdx_eq, List.range_succ, List.reverse_append]
    simp

/-- In-range lookup after `k` bare pushes: relative index `i` holds the
sample pushed `i` frames ago. -/
theorem pushedAfter_getD_of_lt (R : ℚ) (f : ℕ → ℚ) (k i : ℕ)
    (h1 : i < k) (h2 : i ≤ evictIndex R) :
    dequeGet (pushedAfter R f k) i = f (k - 1 - i) := by
  rw [dequeGet, pushedAfter_eq]
  have hlen : i < ((((List.range k).reverse).map f).take (evictIndex R + 1)).length := by
    simp only [List.length_take, List.length_map, List.length_reverse, List.length_range]
    omega
  rw [List.getD_eq_getElem _ _ hlen]
  simp [List.getElem_reverse]

/-- Out-of-range lookup after `k` bare pushes returns silence. -/
theorem pushedAfter_getD_of_ge (R : ℚ) (f : ℕ → ℚ) (k i : ℕ)
    (h : k ≤ i ∨ evictIndex R < i) :
    dequeGet (pushedAfter R f k) i = 0 := by
  rw [dequeGet, pushedAfter_eq]
  apply List.getD_eq_default
  simp only [List.length_take, List.length_map, List.length_reverse, List.length_range]
  omega

/-- With zero feedback the per-frame deque dynamics degenerate to bare
pushes of the dry input. -/
theorem dequeAfter_zero_feedback (p : DelayParams) (R : ℚ) (xs : ℕ → ℚ)
    (hfb : p.feedback = 0) (t : ℕ) :
    dequeAfter p R xs t = pushedAfter R xs t := by
  induction t with
  | zero => rfl
  | succ t ih =>
    rw [dequeAfter, pushedAfter, ih]
    unfold dequeStep storedVal
    rw [hfb, mul_zero, add_zero]

/-- The deque state after `t` frames only depends on the first `t` inputs. -/
theorem dequeAfter_congr (p : DelayParams) (R : ℚ) (xs ys : ℕ → ℚ) (t : ℕ)
    (h : ∀ u, u < t → xs u = ys u) :
    dequeAfter p R xs t = dequeAfter p R ys t := by
  induction t with
  | zero => rfl
  | succ t ih =>
    rw [dequeAfter, dequeAfter, ih fun u hu => h u (Nat.lt_succ_of_lt hu),
      h t (Nat.lt_succ_self t)]

/-- The deque never grows beyond `evictIndex R + 1` samples. -/
theorem dequeAfter_length_le (p : DelayParams) (R : ℚ) (xs : ℕ → ℚ) (t : ℕ) :
    (dequeAfter p R xs t).length ≤ evictIndex R + 1 := by
  induction t with
  | zero => simp [dequeAfter]
  | succ t ih =>
    rw [dequeAfter]
    unfold dequeStep pushSample
    simp only [List.length_cons, List.length_eraseIdx]
    split <;> omega

/-- Lookups into an all-zero deque yield zero. -/
theorem dequeGet_of_all_zero (q : List ℚ) (h : ∀ x ∈ q, x = 0) (i : ℕ) :
    dequeGet q i = 0 := by
  induction q generalizing i with
  | nil => simp [dequeGet]
  | cons a t ih =>
    cases i with
    | zero => simpa [dequeGet] using h a (by simp)
    | succ n =>
      rw [dequeGet, List.getD_cons_succ]
      exact ih (fun x hx => h x (by simp [hx])) n

/-! ## Claim theorems -/

/-- C1, counterexample: the claim says the output is the equal-power
crossfade `dry * cos(mix·π/2) + delayed * sin(mix·π/2)`.  At `mix = 1/2`,
`dry = 1`, `delayed = 0` (empty deque) the code outputs `1/2` on both
channels, while the equal-power formula gives `cos(π/4) = √2/2 ≠ 1/2`. -/
theorem mix_not_equal_power :
    processFrame ⟨300, 0, 1/2⟩ 10 [] [1, 0] = some ([1], [1/2, 1/2]) ∧
      (1/2 : ℝ) ≠
        1 * Real.cos ((1/2) * (Real.pi / 2)) + 0 * Real.sin ((1/2) * (Real.pi / 2)) := by
  constructor
  · rw [processFrame_cons_eq]
    norm_num [delayedVal, dequeGet]
  · intro hEq
    have h4 : ((1 : ℝ)/2) * (Real.pi / 2) = Real.pi / 4 := by ring
    rw [h4, Real.cos_pi_div_four, Real.sin_pi_div_four] at hEq
    have h2 : Real.sqrt 2 = 1 := by linarith
    have h3 := Real.sq_sqrt (by norm_num : (0:ℝ) ≤ 2)
    rw [h2] at h3
    norm_num at h3

/-- C1, amended: for every frame (with the mandatory two channels) the
output written to both channels is the *linear* crossfade
`dry * (1 - mix) + delayed * mix`, not an equal-power one. -/
theorem mix_linear_crossfade (p : DelayParams) (R : ℚ) (q : List ℚ)
    (dry y : ℚ) (rest : List ℚ) :
    processFrame p R q (dry :: y :: rest) =
      some ((dry + delayedVal p R q * p.feedback) :: q.eraseIdx (evictIndex R),
        (dry * (1 - p.mix) + delayedVal p R q * p.mix) ::
          (dry * (1 - p.mix) + delayedVal p R q * p.mix) :: rest) :=
  processFrame_cons_eq p R q dry y rest

/-- C2, counterexample: with `time = 5/2` ms and `sample_rate = 1000`
(`d = 5/2` samples) and history `[0, 1, 0, 0]`, the code's delayed sample
is the single tap at index `(-1 + 5/2) as usize = 1`, value `1`, whereas
the claimed interpolation `lookup(2)·(1/2) + lookup(3)·(1/2)` is `0`. -/
theorem delayed_not_interpolated :
    dequeGet [0, 1, 0, 0] (delayIndex (5/2) 1000) ≠
      specInterpDelayed [0, 1, 0, 0] ((5/2) * (1/1000) * 1000) := by
  have h : delayIndex (5/2) 1000 = 1 := by
    rw [delayIndex, rustCastUsize_neg_one_add]
    norm_num
  rw [h]
  unfold specInterpDelayed
  have h2 : ⌊(5/2 : ℚ) * (1/1000) * 1000⌋ = 2 := by norm_num
  rw [h2]
  have e1 : dequeGet [0, 1, 0, 0] 1 = 1 := rfl
  have e2 : dequeGet [0, 1, 0, 0] ((2 : ℤ).toNat) = 0 := rfl
  have e3 : dequeGet [0, 1, 0, 0] ((2 : ℤ).toNat + 1) = 0 := rfl
  rw [e1, e2, e3]
  norm_num

/-- C2, amended: the delayed sample is a single integer tap, the lookup at
relative index `(⌊d⌋ - 1).toNat` (the cast of `-1 + d` to `usize`), with no
linear interpolation between adjacent taps. -/
theorem delayed_single_tap (p : DelayParams) (R : ℚ) (q : List ℚ) :
    delayedVal p R q = dequeGet q ((⌊p.time * (1/1000) * R⌋ - 1).toNat) := by
  unfold delayedVal delayIndex
  rw [rustCastUsize_neg_one_add]

/-- C3, counterexample: a frame with no channels makes the per-frame step
hit `channel_samples.get_mut(0).unwrap()` and abort (modelled as `none`);
a missing channel is *not* treated as silence. -/
theorem missing_channel_panics :
    processFrame ⟨300, 1/2, 1/2⟩ 10 [] [] = none := rfl

/-- C3, amended: under the two-channel buffer contract (every frame carries
at least two channel samples) the per-frame step never panics — the only
fallible lookup that remains, the history lookup, falls back to silence —
but a frame missing a channel would abort rather than be treated as
silence. -/
theorem processFrame_total_of_two_channels (p : DelayParams) (R : ℚ)
    (q : List ℚ) (frame : List ℚ) (h : 2 ≤ frame.length) :
    (processFrame p R q frame).isSome = true := by
  obtain ⟨a, b, rest, rfl⟩ : ∃ a b rest, frame = a :: b :: rest := by
    cases frame with
    | nil => simp at h
    | cons a t =>
      cases t with
      | nil => simp at h
      | cons b r => exact ⟨a, b, r, rfl⟩
  rw [processFrame_cons_eq]
  rfl

/-- C3, witness for the amended theorem. -/
theorem processFrame_total_of_two_channels_witness :
    2 ≤ ([1, 2] : List ℚ).length ∧
      (processFrame ⟨300, 1/2, 1/2⟩ 10 [] [1, 2]).isSome = true :=
  ⟨by decide, processFrame_total_of_two_channels ⟨300, 1/2, 1/2⟩ 10 [] [1, 2] (by decide)⟩

/-- C4: each frame pushes exactly one value, `stored = dry + delayed·feedback`,
onto the front of the deque (after the eviction at `evictIndex R`), and the
delayed value read during frame `t` depends only on the inputs of frames
strictly before `t` — a frame never observes its own push. -/
theorem push_after_read (p : DelayParams) (R : ℚ) (xs : ℕ → ℚ) (t : ℕ) :
    dequeAfter p R xs (t + 1) =
      (xs t + delayedAt p R xs t * p.feedback) ::
        (dequeAfter p R xs t).eraseIdx (evictIndex R) ∧
    ∀ ys : ℕ → ℚ, (∀ u, u < t → xs u = ys u) →
      delayedAt p R xs t = delayedAt p R ys t := by
  constructor
  · rfl
  · intro ys h
    unfold delayedAt
    rw [dequeAfter_congr p R xs ys t h]

/-- C4, witness. -/
theorem push_after_read_witness :
    (∀ u, u < 1 → impulse u = (fun v => if v = 0 then (1 : ℚ) else 5) u) ∧
      delayedAt ⟨300, 0, 1/2⟩ 10 impulse 1 =
        delayedAt ⟨300, 0, 1/2⟩ 10 (fun v => if v = 0 then (1 : ℚ) else 5) 1 := by
  refine ⟨by decide, ?_⟩
  exact (push_after_read ⟨300, 0, 1/2⟩ 10 impulse 1).2
    (fun v => if v = 0 then (1 : ℚ) else 5) (by decide)

/-- C7: a history lookup at a relative index at or beyond the number of
stored samples returns silence, and in every reachable deque state an index
at or beyond the capacity `bufCapacity R` likewise returns silence; the
lookup is a total function and never signals an error. -/
theorem lookup_out_of_range_silent :
    (∀ (q : List ℚ) (i : ℕ), q.length ≤ i → dequeGet q i = 0) ∧
    (∀ (p : DelayParams) (R : ℚ) (xs : ℕ → ℚ) (t i : ℕ),
      1 ≤ bufCapacity R → bufCapacity R ≤ i →
        dequeGet (dequeAfter p R xs t) i = 0) := by
  constructor
  · intro q i h
    exact List.getD_eq_default _ _ h
  · intro p R xs t i hcap hi
    apply List.getD_eq_default
    have h1 := dequeAfter_length_le p R xs t
    have h2 := evictIndex_eq R
    omega

/-- C7, witness. -/
theorem lookup_out_of_range_silent_witness :
    ([1, 2] : List ℚ).length ≤ 5 ∧ dequeGet [1, 2] 5 = 0 :=
  ⟨by decide, lookup_out_of_range_silent.1 [1, 2] 5 (by decide)⟩

/-- C8: (re)initialization with a positive sample rate replaces the deque by
an empty one whose requested capacity is `⌊sample_rate * 2⌋`, discarding all
prior content, so every subsequent lookup (index 0 included) yields 0.0. -/
theorem reinitialization_clears_state (old : List ℚ) (R : ℚ) (h : 0 < R) :
    initializeDelay old R = [] ∧ (bufCapacity R : ℤ) = ⌊R * 2⌋ ∧
      ∀ i, dequeGet (initializeDelay old R) i = 0 := by
  refine ⟨rfl, ?_, fun i => by simp [initializeDelay, dequeGet]⟩
  unfold bufCapacity rustCastUsize
  rw [mul_comm, Int.toNat_of_nonneg]
  exact Int.floor_nonneg.mpr (by positivity)

/-- C8, witness. -/
theorem reinitialization_clears_state_witness :
    (0 : ℚ) < 10 ∧
      (initializeDelay [3] 10 = [] ∧ (bufCapacity 10 : ℤ) = ⌊(10 : ℚ) * 2⌋ ∧
        ∀ i, dequeGet (initializeDelay [3] 10) i = 0) :=
  ⟨by norm_num, reinitialization_clears_state [3] 10 (by norm_num)⟩

/-- C10: when the delay length `d = time·0.001·sample_rate` is below one
sample, the index expression `-1.0 + d` is negative, its `usize` cast
saturates to 0, and the per-frame step therefore reads relative index 0 —
the sample stored by the immediately preceding frame. -/
theorem subsample_delay_saturates (p : DelayParams) (R : ℚ)
    (h : p.time * (1/1000) * R < 1) :
    delayIndex p.time R = 0 ∧
      ∀ (xs : ℕ → ℚ) (t : ℕ),
        delayedAt p R xs (t + 1) = xs t + delayedAt p R xs t * p.feedback := by
  have h0 : delayIndex p.time R = 0 := by
    rw [delayIndex, rustCastUsize_neg_one_add]
    have : ⌊p.time * (1/1000) * R⌋ < 1 := Int.floor_lt.mpr (by exact_mod_cast h)
    omega
  refine ⟨h0, fun xs t => ?_⟩
  unfold delayedAt delayedVal
  rw [h0, dequeAfter]
  unfold dequeStep pushSample storedVal delayedVal
  rw [h0]
  simp [dequeGet]

/-- C10, witness: 1 ms at 500 Hz gives `d = 1/2 < 1`. -/
theorem subsample_delay_saturates_witness :
    ((1 : ℚ) * (1/1000) * 500 < 1) ∧
      (delayIndex (1 : ℚ) 500 = 0 ∧
        ∀ (xs : ℕ → ℚ) (t : ℕ),
          delayedAt ⟨1, 1/2, 1/2⟩ 500 xs (t + 1) =
            xs t + delayedAt ⟨1, 1/2, 1/2⟩ 500 xs t * (⟨1, 1/2, 1/2⟩ : DelayParams).feedback) :=
  ⟨by norm_num, subsample_delay_saturates ⟨1, 1/2, 1/2⟩ 500 (by norm_num)⟩

/-- C5: with `feedback = 0`, an impulse input produces exactly one non-zero
delayed sample, at frame `delayIndex + 1 = ⌊d⌋` — within one sample of
`round(d)` — and on every frame the output is the dry input scaled by the
dry-side weight `1 - mix` plus the delayed sample scaled by `mix`. -/
theorem zero_feedback_impulse_response (p : DelayParams) (R : ℚ)
    (hfb : p.feedback = 0)
    (h1 : 1 ≤ p.time * (1/1000) * R)
    (h2 : p.time * (1/1000) * R ≤ 2 * R) :
    (∀ t, delayedAt p R impulse t ≠ 0 ↔ t = delayIndex p.time R + 1) ∧
    |((delayIndex p.time R : ℤ) + 1) - round (p.time * (1/1000) * R)| ≤ 1 ∧
    ∀ t, outputAt p R impulse t =
      impulse t * (1 - p.mix) + delayedAt p R impulse t * p.mix := by
  have hd1 : 1 ≤ ⌊p.time * (1/1000) * R⌋ := Int.le_floor.mpr (by exact_mod_cast h1)
  have hidx : delayIndex p.time R = (⌊p.time * (1/1000) * R⌋ - 1).toNat := by
    rw [delayIndex, rustCastUsize_neg_one_add]
  have hidxZ : (delayIndex p.time R : ℤ) = ⌊p.time * (1/1000) * R⌋ - 1 := by
    rw [hidx]
    exact Int.toNat_of_nonneg (by omega)
  have hfl : ⌊p.time * (1/1000) * R⌋ ≤ ⌊2 * R⌋ := Int.floor_le_floor h2
  have hev : delayIndex p.time R ≤ evictIndex R := by
    rw [hidx, evictIndex, rustCastUsize_neg_one_add]
    omega
  have hmain : ∀ t, delayedAt p R impulse t =
      if t = delayIndex p.time R + 1 then 1 else 0 := by
    intro t
    rw [delayedAt, delayedVal, dequeAfter_zero_feedback p R impulse hfb]
    by_cases ht : t = delayIndex p.time R + 1
    · rw [ht, if_pos rfl,
        pushedAfter_getD_of_lt R impulse _ _ (Nat.lt_succ_self _) hev]
      simp [impulse]
    · rw [if_neg ht]
      rcases Nat.lt_or_ge (delayIndex p.time R) t with hlt | hge
      · rw [pushedAfter_getD_of_lt R impulse t _ hlt hev]
        have hne : t - 1 - delayIndex p.time R ≠ 0 := by omega
        simp [impulse, hne]
      · exact pushedAfter_getD_of_ge R impulse t _ (Or.inl hge)
  refine ⟨?_, ?_, fun t => rfl⟩
  · intro t
    rw [hmain t]
    by_cases ht : t = delayIndex p.time R + 1 <;> simp [ht]
  · have hb1 : ⌊p.time * (1/1000) * R⌋ ≤ ⌊p.time * (1/1000) * R + 1/2⌋ :=
      Int.floor_le_floor (by linarith)
    have hb2 : ⌊p.time * (1/1000) * R + 1/2⌋ ≤ ⌊p.time * (1/1000) * R⌋ + 1 := by
      rw [← Int.floor_add_one]
      exact Int.floor_le_floor (by linarith)
    rw [round_eq, hidxZ, abs_le]
    omega

/-- C5, witness: `time = 300` ms at `R = 10` Hz gives `d = 3`; the unique
non-zero delayed response is at frame 3. -/
theorem zero_feedback_impulse_response_witness :
    ((1 : ℚ) ≤ 300 * (1/1000) * 10) ∧
      (delayedAt ⟨300, 0, 1/2⟩ 10 impulse 3 ≠ 0 ↔ 3 = delayIndex (300 : ℚ) 10 + 1) :=
  ⟨by norm_num,
    (zero_feedback_impulse_response ⟨300, 0, 1/2⟩ 10 rfl (by norm_num) (by norm_num)).1 3⟩

/-- C6: the per-frame remove/push pair keeps at most `bufCapacity R`
samples: after `N + 1` pushes into the empty buffer (`N = bufCapacity R`),
relative index `N - 1` holds the second sample pushed (the first was
evicted) and any index at or beyond `N` reads silence. -/
theorem buffer_eviction (R : ℚ) (f : ℕ → ℚ) (hcap : 1 ≤ bufCapacity R) :
    dequeGet (pushedAfter R f (bufCapacity R + 1)) (bufCapacity R - 1) = f 1 ∧
    ∀ i, bufCapacity R ≤ i → dequeGet (pushedAfter R f (bufCapacity R + 1)) i = 0 := by
  have he : evictIndex R = bufCapacity R - 1 := evictIndex_eq R
  constructor
  · rw [pushedAfter_getD_of_lt R f _ _ (by omega) (by omega)]
    congr 1
    omega
  · intro i hi
    exact pushedAfter_getD_of_ge R f _ i (Or.inr (by omega))

/-- C6, witness: `R = 2` gives capacity `4`; after pushing `0,1,2,3,4` the
lookup at index 3 returns the second push, `1`. -/
theorem buffer_eviction_witness :
    1 ≤ bufCapacity 2 ∧
      dequeGet (pushedAfter 2 (fun n => (n : ℚ)) (bufCapacity 2 + 1))
        (bufCapacity 2 - 1) = ((1 : ℕ) : ℚ) := by
  have hf : ⌊(2 * 2 : ℚ)⌋ = 4 := by norm_num
  have hcap : 1 ≤ bufCapacity 2 := by
    rw [bufCapacity, rustCastUsize, hf]
    decide
  exact ⟨hcap, (buffer_eviction 2 (fun n => (n : ℚ)) hcap).1⟩

/-- C9: starting from the empty deque, a block of all-zero two-channel
frames produces all-zero outputs, for every parameter setting. -/
theorem silence_in_silence_out (p : DelayParams) (R : ℚ) (frames : List (List ℚ))
    (h : ∀ f ∈ frames, 2 ≤ f.length ∧ ∀ x ∈ f, x = 0) :
    ∃ q' outs, processBuffer p R [] frames = some (q', outs) ∧
      ∀ f ∈ outs, ∀ x ∈ f, x = 0 := by
  suffices H : ∀ (fr : List (List ℚ)) (q : List ℚ), (∀ x ∈ q, x = 0) →
      (∀ f ∈ fr, 2 ≤ f.length ∧ ∀ x ∈ f, x = 0) →
      ∃ q' outs, processBuffer p R q fr = some (q', outs) ∧
        (∀ x ∈ q', x = 0) ∧ ∀ f ∈ outs, ∀ x ∈ f, x = 0 by
    obtain ⟨q', outs, h1, _, h3⟩ := H frames [] (by simp) h
    exact ⟨q', outs, h1, h3⟩
  intro fr
  induction fr with
  | nil => exact fun q hq _ => ⟨q, [], rfl, hq, by simp⟩
  | cons f fs ih =>
    intro q hq hf
    obtain ⟨hlen, hzero⟩ := hf f (by simp)
    obtain ⟨a, b, rest, rfl⟩ : ∃ a b rest, f = a :: b :: rest := by
      cases f with
      | nil => simp at hlen
      | cons a t =>
        cases t with
        | nil => simp at hlen
        | cons b r => exact ⟨a, b, r, rfl⟩
    have ha : a = 0 := hzero a (by simp)
    have hb : b = 0 := hzero b (by simp)
    subst ha
    subst hb
    have hdel : delayedVal p R q = 0 := dequeGet_of_all_zero q hq _
    have hq1 : ∀ x ∈ (0 + delayedVal p R q * p.feedback) :: q.eraseIdx (evictIndex R),
        x = 0 := by
      intro x hx
      rcases List.mem_cons.mp hx with hx | hx
      · rw [hx, hdel]
        ring
      · exact hq x (List.mem_of_mem_eraseIdx hx)
    obtain ⟨q', outs, hrun, hq', houts⟩ :=
      ih ((0 + delayedVal p R q * p.feedback) :: q.eraseIdx (evictIndex R)) hq1
        fun g hg => hf g (by simp [hg])
    refine ⟨q',
      ((0 * (1 - p.mix) + delayedVal p R q * p.mix) ::
        (0 * (1 - p.mix) + delayedVal p R q * p.mix) :: rest) :: outs, ?_, hq', ?_⟩
    · simp only [processBuffer, processFrame_cons_eq, hrun]
    · intro g hg
      rcases List.mem_cons.mp hg with hg | hg
      · intro x hx
        rw [hg] at hx
        have hout : 0 * (1 - p.mix) + delayedVal p R q * p.mix = 0 := by
          rw [hdel]
          ring
        rcases List.mem_cons.mp hx with hx | hx
        · rw [hx, hout]
        · rcases List.mem_cons.mp hx with hx | hx
          · rw [hx, hout]
          · exact hzero x (by simp [hx])
      · exact houts g hg

/-- C9, witness: two silent stereo frames. -/
theorem silence_in_silence_out_witness :
    (∀ f ∈ ([[0, 0], [0, 0]] : List (List ℚ)), 2 ≤ f.length ∧ ∀ x ∈ f, x = 0) ∧
      ∃ q' outs,
        processBuffer ⟨300, 1/2, 1/2⟩ 10 [] ([[0, 0], [0, 0]] : List (List ℚ)) =
          some (q', outs) ∧ ∀ f ∈ outs, ∀ x ∈ f, x = 0 :=
  ⟨by decide, silence_in_silence_out ⟨300, 1/2, 1/2⟩ 10 [[0, 0], [0, 0]] (by decide)⟩

end DelayPlug
